import Mathlib

/-!
# A shallow embedding of the `sandworm` whitespace-obfuscation scanner

The Rust program under verification scans a directory tree for text lines
containing long runs of space/tab characters.  This file embeds its data
model and operations in Lean:

* lines are `List Char`; a file's decoded content is `List (Option (List Char))`
  where `none` marks the position at which `BufReader::lines` reports a decode
  error (binary content);
* the regex `[ \t]{n,}` together with `Regex::find` (leftmost, greedy match)
  is embedded as `reFind`;
* byte lengths of Rust `String`s are recovered through the UTF-8 size of each
  character (`utf8Size`, `byteLen`), and the truncation loop that backs up to
  a character boundary is embedded as the greedy byte-budgeted prefix `cutAt`;
* the filesystem seen by the walker is an `FsTree`; `walkTree` embeds the
  `WalkBuilder` traversal with its `filter_entry` denylist check, yielding
  only regular files;
* `scan_file` and `runScan` embed the per-file scanner and the fan-out over
  the collected path list.
-/

/-- Whitespace as matched by the character class in the pattern
`[ \t]{n,}` built in `main`: a space or a tab. -/
def isWs (c : Char) : Bool := c = ' ' || c = '\t'

/-- Length of the maximal run of space/tab characters at the head of a line. -/
def wsRun : List Char → Nat
  | [] => 0
  | c :: cs => if isWs c then wsRun cs + 1 else 0

/-- Embedding of `pattern.find(&line)` for the regex `[ \t]{n,}`:
the leftmost position admitting at least `n` consecutive space/tab
characters wins, and the greedy quantifier extends the match across the
whole run there.  Returns the half-open span `(start, end)` in character
positions; spaces and tabs are one byte each in UTF-8, so the byte-offset
difference `mat.end() - mat.start()` computed by the Rust code equals the
character count `end - start` here. -/
def reFind (n : Nat) : List Char → Option (Nat × Nat)
  | [] => if n = 0 then some (0, 0) else none
  | c :: cs =>
    if n ≤ wsRun (c :: cs) then some (0, wsRun (c :: cs))
    else (reFind n cs).map (fun p => (p.1 + 1, p.2 + 1))

/-- UTF-8 encoded size in bytes of one character, as produced by Rust's
`String` encoding. -/
def utf8Size (c : Char) : Nat :=
  if c.toNat < 0x80 then 1
  else if c.toNat < 0x800 then 2
  else if c.toNat < 0x10000 then 3
  else 4

/-- `line.len()` in Rust: the UTF-8 byte length of the line. -/
def byteLen (l : List Char) : Nat := (l.map utf8Size).sum

/-- Embedding of the truncation slice: starting from byte index 120 the code
decrements `end` while `!line.is_char_boundary(end)` and then takes
`&line[..end]`.  The largest character boundary not exceeding the byte
budget is exactly the longest character prefix whose byte length fits the
budget, taken greedily character by character. -/
def cutAt (budget : Nat) : List Char → List Char
  | [] => []
  | c :: cs => if utf8Size c ≤ budget then c :: cutAt (budget - utf8Size c) cs else []

/-- The preview computed in `scan_file`: if the line's byte length exceeds
120 bytes, the line is cut at the largest character boundary at most 120
and `"..."` is appended; otherwise the line is kept whole. -/
def preview (l : List Char) : List Char :=
  if 120 < byteLen l then cutAt 120 l ++ ['.', '.', '.'] else l

/-- One detected occurrence, as in the Rust `Finding` struct.  Paths are
modelled as their segment lists. -/
structure Finding where
  path : List String
  line_num : Nat
  ws_count : Nat
  line_preview : List Char
deriving DecidableEq

/-- The observable state of one file as `scan_file` encounters it:
whether `std::fs::metadata` succeeds, whether the entry is a regular file,
the metadata size, whether `File::open` succeeds, and the decoded lines
(`none` marks a line-decoding error from `BufReader::lines`). -/
structure FileData where
  metaOk : Bool
  isFile : Bool
  size : Nat
  openOk : Bool
  lines : List (Option (List Char))
deriving DecidableEq

/-- The findings contributed by one decoded line: `scan_file` pushes one
`Finding` when `pattern.find` matches and nothing otherwise.  `idx` is the
0-based enumeration index, so the recorded line number is `idx + 1`. -/
def lineFindings (p : List String) (n : Nat) (idx : Nat) (l : List Char) : List Finding :=
  match reFind n l with
  | some (s, e) => [⟨p, idx + 1, e - s, preview l⟩]
  | none => []

/-- The line loop of `scan_file` over the enumerated decoded lines:
a decode error (`none`) breaks out of the loop, keeping the findings
already collected. -/
def scanLinesAux (p : List String) (n : Nat) (idx : Nat) :
    List (Option (List Char)) → List Finding
  | [] => []
  | none :: _ => []
  | some l :: rest => lineFindings p n idx l ++ scanLinesAux p n (idx + 1) rest

/-- Embedding of `scan_file`: metadata failure, non-regular files, oversized
or empty files and open failures all return the empty finding list; otherwise
the decoded lines are scanned in order. -/
def scan_file (p : List String) (fd : FileData) (n : Nat) (max_size : Nat) : List Finding :=
  if fd.metaOk = false then []
  else if fd.isFile = false ∨ max_size < fd.size ∨ fd.size = 0 then []
  else if fd.openOk = false then []
  else scanLinesAux p n 0 fd.lines

/-- The `filter_entry` denylist from `main`, checked by exact match against
each traversal entry's base name. -/
def denylist : List String :=
  ["node_modules", ".git", "vendor", ".pnpm", "dist", "build", ".cache",
   "__pycache__", ".venv", "venv", ".tox"]

/-- A filesystem snapshot: regular files carry the state `scan_file` will
observe, directories carry children. -/
inductive FsTree where
  | file (name : String) (data : FileData)
  | dir (name : String) (children : List FsTree)

mutual

/-- Embedding of the `WalkBuilder` traversal with the `filter_entry`
predicate: an entry whose base name matches the denylist is skipped (with
its whole subtree when it is a directory, and regardless of its type), and
only regular files are yielded, each tagged with its path segments from the
walk root downward. -/
def walkTree : FsTree → List (List String × FileData)
  | .file nm d => if nm ∈ denylist then [] else [([nm], d)]
  | .dir nm ch =>
    if nm ∈ denylist then []
    else (walkList ch).map fun pd => (nm :: pd.1, pd.2)

/-- The traversal of a directory's children, in order. -/
def walkList : List FsTree → List (List String × FileData)
  | [] => []
  | t :: ts => walkTree t ++ walkList ts

end

/-- The parallel fan-out of `main`: `scan_file` applied to every collected
path, results concatenated (rayon's ordered `flat_map`/`collect`). -/
def runScan (files : List (List String × FileData)) (n ms : Nat) : List Finding :=
  files.flatMap (fun pd => scan_file pd.1 pd.2 n ms)

/-- A whole invocation: walk the tree rooted at the CLI path (whose leading
directories are `rootDir` and whose base entry is `t`), then scan every
yielded file.  Each finding's stored path is the full CLI-relative path. -/
def scanTree (rootDir : List String) (t : FsTree) (n ms : Nat) : List Finding :=
  runScan ((walkTree t).map (fun pd => (rootDir ++ pd.1, pd.2))) n ms

/-- The report tuple a finding contributes to the cross-run comparison. -/
def findingTuple (f : Finding) : List String × Nat × Nat := (f.path, f.line_num, f.ws_count)

/-- The resolved CLI configuration (the Rust `Cli` struct). -/
structure Cli where
  path : String
  min_whitespace : Nat
  verbose : Bool
  max_size : Nat
deriving DecidableEq

/-- `default_home`: `$HOME`, or `"."` when unset. -/
def default_home (homeVar : Option String) : String := homeVar.getD "."

/-- Resolution of the clap arguments declared on `Cli`: each `Option` is the
value supplied on the command line, defaulted per the `default_value_t`
attributes (path defaults to the home directory, `min_whitespace` to 50,
`max_size` to 10,000,000). -/
def parseCli (pathArg : Option String) (minWsArg : Option Nat) (verboseFlag : Bool)
    (maxSizeArg : Option Nat) (homeVar : Option String) : Cli :=
  ⟨pathArg.getD (default_home homeVar), minWsArg.getD 50, verboseFlag,
   maxSizeArg.getD 10000000⟩

/-- The property "the line contains a contiguous run of space/tab characters
of length at least `n`". -/
def containsRun (n : Nat) (L : List Char) : Prop :=
  ∃ pre run suf, L = pre ++ run ++ suf ∧ n ≤ run.length ∧ run.all isWs = true

/-- Concrete inputs used by witnesses and counterexamples. -/
def spacesLine : List Char := List.replicate 50 ' '

/-- A 121-character (121-byte) line: 50 spaces then 71 letters. -/
def longLine : List Char := List.replicate 50 ' ' ++ List.replicate 71 'a'

/-- The line used against C3: 74 characters but 122 UTF-8 bytes. -/
def wideLine : List Char := List.replicate 50 ' ' ++ List.replicate 24 '€'

/-- A readable one-line file whose line is 50 spaces. -/
def hitFile : FileData := ⟨true, true, 50, true, [some spacesLine]⟩

/-- A readable file whose metadata reports size 0. -/
def emptyFile : FileData := ⟨true, true, 0, true, [some spacesLine]⟩

/-- A readable file whose metadata reports a large size. -/
def bigFile : FileData := ⟨true, true, 999, true, [some spacesLine]⟩

/-- The tree holding one scannable file `proj/a.txt` whose single line is
50 spaces. -/
def cexTree : FsTree := .dir "proj" [.file "a.txt" hitFile]

/-- A one-line text file whose line is plain text, used against C7. -/
def zeroFile : FileData := ⟨true, true, 2, true, [some ['a', 'b']]⟩

theorem wsRun_le_length (l : List Char) : wsRun l ≤ l.length := by
  induction l with
  | nil => simp [wsRun]
  | cons c cs ih => simp only [wsRun, List.length_cons]; split <;> omega

theorem all_isWs_take_wsRun (l : List Char) : (l.take (wsRun l)).all isWs = true := by
  induction l with
  | nil => simp [wsRun]
  | cons c cs ih =>
    simp only [wsRun]
    split
    · simpa [List.all_cons] using And.intro (by assumption) ih
    · simp

theorem length_le_wsRun_append (run suf : List Char) (h : run.all isWs = true) :
    run.length ≤ wsRun (run ++ suf) := by
  induction run with
  | nil => simp
  | cons c cs ih =>
    simp only [List.all_cons, Bool.and_eq_true] at h
    simp only [List.cons_append, wsRun, h.1, if_true, List.length_cons]
    exact Nat.succ_le_succ (ih h.2)

theorem exists_drop_iff_containsRun (n : Nat) (L : List Char) :
    (∃ i, n ≤ wsRun (L.drop i)) ↔ containsRun n L := by
  constructor
  · rintro ⟨i, hi⟩
    refine ⟨L.take i, (L.drop i).take (wsRun (L.drop i)),
            (L.drop i).drop (wsRun (L.drop i)), ?_, ?_, ?_⟩
    · rw [List.append_assoc, List.take_append_drop, List.take_append_drop]
    · rw [List.length_take]
      have h2 := wsRun_le_length (L.drop i)
      omega
    · exact all_isWs_take_wsRun (L.drop i)
  · rintro ⟨pre, run, suf, rfl, hlen, hall⟩
    refine ⟨pre.length, ?_⟩
    rw [List.append_assoc, List.drop_left]
    exact le_trans hlen (length_le_wsRun_append run suf hall)

theorem reFind_isSome_iff (n : Nat) (hn : 1 ≤ n) (L : List Char) :
    (reFind n L).isSome = true ↔ ∃ i, n ≤ wsRun (L.drop i) := by
  induction L with
  | nil =>
    simp only [reFind, if_neg (by omega : ¬ n = 0)]
    simp [wsRun]
    omega
  | cons c cs ih =>
    by_cases h : n ≤ wsRun (c :: cs)
    · simp only [reFind, if_pos h, Option.isSome_some, true_iff]
      exact ⟨0, by simpa using h⟩
    · have hmap : ((reFind n cs).map (fun p : Nat × Nat => (p.1 + 1, p.2 + 1))).isSome
          = (reFind n cs).isSome := by cases reFind n cs <;> rfl
      simp only [reFind, if_neg h, hmap, ih]
      constructor
      · rintro ⟨i, hi⟩
        exact ⟨i + 1, by simpa using hi⟩
      · rintro ⟨i, hi⟩
        cases i with
        | zero => exact absurd (by simpa using hi) h
        | succ j => exact ⟨j, by simpa using hi⟩

theorem reFind_eq_some (n : Nat) (hn : 1 ≤ n) (L : List Char) (s e : Nat)
    (h : reFind n L = some (s, e)) :
    e = s + wsRun (L.drop s) ∧ n ≤ wsRun (L.drop s) ∧
      (∀ j, j < s → wsRun (L.drop j) < n) ∧ (s = 0 ∨ wsRun (L.drop (s - 1)) = 0) := by
  induction L generalizing s e with
  | nil => simp [reFind, if_neg (by omega : ¬ n = 0)] at h
  | cons c cs ih =>
    by_cases hw : n ≤ wsRun (c :: cs)
    · rw [reFind, if_pos hw] at h
      obtain ⟨rfl, rfl⟩ : 0 = s ∧ wsRun (c :: cs) = e := by
        simpa [Prod.ext_iff] using h
      exact ⟨by simp, by simpa using hw, by omega, Or.inl rfl⟩
    · rw [reFind, if_neg hw] at h
      obtain ⟨⟨s', e'⟩, hfind, heq⟩ := Option.map_eq_some'.mp h
      obtain ⟨rfl, rfl⟩ : s' + 1 = s ∧ e' + 1 = e := by
        simpa [Prod.ext_iff] using heq
      obtain ⟨h1, h2, h3, h4⟩ := ih s' e' hfind
      refine ⟨?_, by simpa using h2, ?_, ?_⟩
      · simpa [List.drop_succ_cons] using by omega
      · intro j hj
        cases j with
        | zero => simpa using Nat.lt_of_not_le hw
        | succ j' => simpa using h3 j' (by omega)
      · right
        cases s' with
        | zero =>
          simp only [Nat.add_sub_cancel, List.drop_zero]
          by_cases hc : isWs c
          · exfalso
            have hcs : n ≤ wsRun cs := by simpa using h2
            have : wsRun (c :: cs) = wsRun cs + 1 := by simp [wsRun, hc]
            omega
          · simp [wsRun, hc]
        | succ s'' =>
          have h5 := h4.resolve_left (by omega)
          simpa [List.drop_succ_cons] using h5

/-- C1: for every line `L` and every threshold `n ≥ 1`, the per-line
detection of `scan_file` (the regex `[ \t]{n,}` applied by `pattern.find`)
matches iff `L` contains a contiguous run of space/tab characters of length
at least `n`; on a match the reported whitespace count `e - s` equals the
character length of the first maximal qualifying run (the span is the whole
whitespace run at its start, that start begins the line or follows a
non-whitespace character, and no earlier position carries `n` consecutive
whitespace characters); and every line contributes at most one finding. -/
theorem C1_pattern_matcher (n : Nat) (hn : 1 ≤ n) (L : List Char) :
    ((reFind n L).isSome = true ↔ containsRun n L) ∧
    (∀ s e, reFind n L = some (s, e) →
        e - s = wsRun (L.drop s) ∧ n ≤ wsRun (L.drop s) ∧
        (∀ j, j < s → wsRun (L.drop j) < n) ∧ (s = 0 ∨ wsRun (L.drop (s - 1)) = 0)) ∧
    (∀ p idx, (lineFindings p n idx L).length ≤ 1) ∧
    (∀ p idx f, f ∈ lineFindings p n idx L →
        ∃ s e, reFind n L = some (s, e) ∧ f.ws_count = e - s) := by
  refine ⟨?_, ?_, ?_, ?_⟩
  · rw [reFind_isSome_iff n hn L]
    exact exists_drop_iff_containsRun n L
  · intro s e h
    obtain ⟨h1, h2, h3, h4⟩ := reFind_eq_some n hn L s e h
    exact ⟨by omega, h2, h3, h4⟩
  · intro p idx
    simp only [lineFindings]
    split <;> simp
  · intro p idx f hf
    rcases hmatch : reFind n L with _ | ⟨s, e⟩
    · simp [lineFindings, hmatch] at hf
    · simp only [lineFindings, hmatch, List.mem_singleton] at hf
      exact ⟨s, e, rfl, by simp [hf]⟩

theorem C1_pattern_matcher_witness :
    (1 ≤ 2) ∧
    ((reFind 2 [' ', 'x', ' ', ' ']).isSome = true ↔ containsRun 2 [' ', 'x', ' ', ' ']) :=
  ⟨by decide, (C1_pattern_matcher 2 (by decide) [' ', 'x', ' ', ' ']).1⟩

theorem byteLen_cons (c : Char) (cs : List Char) :
    byteLen (c :: cs) = utf8Size c + byteLen cs := by
  simp [byteLen]

theorem one_le_utf8Size (c : Char) : 1 ≤ utf8Size c := by
  unfold utf8Size
  split
  · omega
  · split
    · omega
    · split <;> omega

theorem length_le_byteLen (l : List Char) : l.length ≤ byteLen l := by
  induction l with
  | nil => simp [byteLen]
  | cons c cs ih =>
    have h := one_le_utf8Size c
    rw [byteLen_cons, List.length_cons]
    omega

/-- The truncation cut is a whole-character prefix of the line whose byte
length fits the budget: the backed-up byte index is a valid character
boundary, so the Rust slice `&line[..end]` cannot panic. -/
theorem cutAt_spec (b : Nat) (l : List Char) :
    cutAt b l = l.take ((cutAt b l).length) ∧ byteLen (cutAt b l) ≤ b := by
  induction l generalizing b with
  | nil => exact ⟨rfl, by simp [cutAt, byteLen]⟩
  | cons c cs ih =>
    by_cases h : utf8Size c ≤ b
    · obtain ⟨hk, hb⟩ := ih (b - utf8Size c)
      constructor
      · simp only [cutAt, if_pos h, List.length_cons, List.take_succ_cons]
        exact congrArg (c :: ·) hk
      · rw [show cutAt b (c :: cs) = c :: cutAt (b - utf8Size c) cs from by
          simp [cutAt, h], byteLen_cons]
        omega
    · simp [cutAt, h, byteLen]

theorem mem_lineFindings_preview (p : List String) (n idx : Nat) (L : List Char)
    (f : Finding) (hf : f ∈ lineFindings p n idx L) : f.line_preview = preview L := by
  rcases hmatch : reFind n L with _ | ⟨s, e⟩
  · simp [lineFindings, hmatch] at hf
  · simp only [lineFindings, hmatch, List.mem_singleton] at hf
    simp [hf]

/-- C2: every finding produced from a line longer than 120 characters
carries a preview of at most 123 characters, namely a whole-character
prefix of the line of at most 120 characters (cut at a valid UTF-8
character boundary, with at most 120 bytes, so the slice never splits a
multi-byte character) followed by the three-character marker. -/
theorem C2_preview_truncation (p : List String) (n idx : Nat) (L : List Char) (f : Finding)
    (hf : f ∈ lineFindings p n idx L) (hlong : 120 < L.length) :
    f.line_preview.length ≤ 123 ∧
    ∃ k, k ≤ 120 ∧ f.line_preview = L.take k ++ ['.', '.', '.'] ∧
      byteLen (L.take k) ≤ 120 := by
  have hpv := mem_lineFindings_preview p n idx L f hf
  have hbytes : 120 < byteLen L := lt_of_lt_of_le hlong (length_le_byteLen L)
  obtain ⟨hk, hb⟩ := cutAt_spec 120 L
  have hlen : (cutAt 120 L).length ≤ 120 :=
    le_trans (length_le_byteLen (cutAt 120 L)) hb
  have hprev : f.line_preview = cutAt 120 L ++ ['.', '.', '.'] := by
    rw [hpv, preview, if_pos hbytes]
  constructor
  · rw [hprev, List.length_append]
    simp only [List.length_cons, List.length_nil]
    omega
  · refine ⟨(cutAt 120 L).length, hlen, ?_, by rw [← hk]; exact hb⟩
    rw [hprev]
    conv_lhs => rw [hk]

set_option maxRecDepth 40000 in
theorem C2_preview_truncation_witness :
    (⟨["w"], 1, 50, preview longLine⟩ : Finding) ∈ lineFindings ["w"] 50 0 longLine ∧
    120 < longLine.length ∧
    (⟨["w"], 1, 50, preview longLine⟩ : Finding).line_preview.length ≤ 123 :=
  ⟨by decide, by decide,
    (C2_preview_truncation ["w"] 50 0 longLine _ (by decide) (by decide)).1⟩

/-- C3 fails on the code: the truncation test is `line.len() > 120`, a byte
count, so this 74-character line (at most 120 characters) still gets cut
and receives the marker; its preview differs from the line. -/
theorem C3_counterexample :
    wideLine.length ≤ 120 ∧
    lineFindings ["w"] 50 0 wideLine
      = [⟨["w"], 1, 50, cutAt 120 wideLine ++ ['.', '.', '.']⟩] ∧
    cutAt 120 wideLine ++ ['.', '.', '.'] ≠ wideLine := by decide

/-- C3 amended: for every line whose UTF-8 byte length is at most 120 that
produces a finding, the preview equals the line itself with no truncation
marker appended (the code compares the byte length, not the character
count, against 120). -/
theorem C3_preview_short_lines (p : List String) (n idx : Nat) (L : List Char) (f : Finding)
    (hf : f ∈ lineFindings p n idx L) (hshort : byteLen L ≤ 120) :
    f.line_preview = L := by
  rw [mem_lineFindings_preview p n idx L f hf, preview, if_neg (by omega)]

theorem C3_preview_short_lines_witness :
    byteLen spacesLine ≤ 120 ∧
    (⟨["w"], 1, 50, preview spacesLine⟩ : Finding).line_preview = spacesLine :=
  ⟨by decide,
    C3_preview_short_lines ["w"] 50 0 spacesLine _ (by decide) (by decide)⟩

theorem scanLinesAux_decode_break (p : List String) (n : Nat) (good : List (List Char)) :
    ∀ (idx : Nat) (rest : List (Option (List Char))),
      scanLinesAux p n idx (good.map some ++ none :: rest)
        = scanLinesAux p n idx (good.map some) := by
  induction good with
  | nil => intro idx rest; simp [scanLinesAux]
  | cons g gs ih =>
    intro idx rest
    simp only [List.map_cons, List.cons_append, scanLinesAux, List.append_eq, ih]

/-- C5: a line-decoding error at position `k + 1` stops the processing of
that file: `scan_file` returns exactly the findings collected for the `k`
successfully decoded lines before it (whatever follows the error is
ignored), and no error is signalled — the overall scan is the plain
concatenation of per-file results, so the remaining files are still
scanned. -/
theorem C5_decode_error_partial (p : List String) (n ms : Nat) (mo isf oo : Bool)
    (sz : Nat) (good : List (List Char)) (rest : List (Option (List Char))) :
    scan_file p ⟨mo, isf, sz, oo, good.map some ++ none :: rest⟩ n ms
      = scan_file p ⟨mo, isf, sz, oo, good.map some⟩ n ms ∧
    (∀ (q : List String) (fd : FileData) (others : List (List String × FileData)),
      runScan ((q, fd) :: others) n ms = scan_file q fd n ms ++ runScan others n ms) := by
  constructor
  · unfold scan_file
    split
    · rfl
    · split
      · rfl
      · split
        · rfl
        · exact scanLinesAux_decode_break p n good 0 rest
  · intro q fd others
    simp [runScan]

/-- C6: `scan_file` returns the empty finding list — rather than an error —
whenever the metadata lookup fails, the entry is not a regular file, the
size is zero, the size exceeds the configured maximum, or the file cannot
be opened, regardless of the file's content. -/
theorem C6_skip_policy (p : List String) (n ms : Nat) (fd : FileData) :
    (fd.metaOk = false → scan_file p fd n ms = []) ∧
    (fd.isFile = false → scan_file p fd n ms = []) ∧
    (fd.size = 0 → scan_file p fd n ms = []) ∧
    (ms < fd.size → scan_file p fd n ms = []) ∧
    (fd.openOk = false → scan_file p fd n ms = []) := by
  unfold scan_file
  refine ⟨?_, ?_, ?_, ?_, ?_⟩ <;> intro h <;> simp [h]

theorem C6_skip_policy_witness :
    (emptyFile.size = 0 ∧ scan_file ["e"] emptyFile 50 100 = []) ∧
    (100 < bigFile.size ∧ scan_file ["b"] bigFile 50 100 = []) :=
  ⟨⟨rfl, (C6_skip_policy ["e"] 50 100 emptyFile).2.2.1 rfl⟩,
   ⟨by decide, (C6_skip_policy ["b"] 50 100 bigFile).2.2.2.1 (by decide)⟩⟩

theorem scanLinesAux_mem_lt (p : List String) (n : Nat) :
    ∀ (ls : List (Option (List Char))) (idx : Nat) (f : Finding),
      f ∈ scanLinesAux p n idx ls → idx < f.line_num := by
  intro ls
  induction ls with
  | nil => intro idx f hf; simp [scanLinesAux] at hf
  | cons o rest ih =>
    intro idx f hf
    cases o with
    | none => simp [scanLinesAux] at hf
    | some l =>
      simp only [scanLinesAux, List.mem_append] at hf
      rcases hf with hf | hf
      · rcases hmatch : reFind n l with _ | ⟨s, e⟩
        · simp [lineFindings, hmatch] at hf
        · simp only [lineFindings, hmatch, List.mem_singleton] at hf
          simp [hf]
      · exact Nat.lt_of_succ_lt (ih (idx + 1) f hf)

theorem scanLinesAux_mem_path (p : List String) (n : Nat) :
    ∀ (ls : List (Option (List Char))) (idx : Nat) (f : Finding),
      f ∈ scanLinesAux p n idx ls → f.path = p := by
  intro ls
  induction ls with
  | nil => intro idx f hf; simp [scanLinesAux] at hf
  | cons o rest ih =>
    intro idx f hf
    cases o with
    | none => simp [scanLinesAux] at hf
    | some l =>
      simp only [scanLinesAux, List.mem_append] at hf
      rcases hf with hf | hf
      · rcases hmatch : reFind n l with _ | ⟨s, e⟩
        · simp [lineFindings, hmatch] at hf
        · simp only [lineFindings, hmatch, List.mem_singleton] at hf
          simp [hf]
      · exact ih (idx + 1) f hf

theorem mem_scan_file (p : List String) (fd : FileData) (n ms : Nat) (f : Finding)
    (hf : f ∈ scan_file p fd n ms) : f ∈ scanLinesAux p n 0 fd.lines := by
  unfold scan_file at hf
  split at hf
  · simp at hf
  · split at hf
    · simp at hf
    · split at hf
      · simp at hf
      · exact hf

theorem scanLinesAux_pairwise (p : List String) (n : Nat) :
    ∀ (ls : List (Option (List Char))) (idx : Nat),
      (scanLinesAux p n idx ls).Pairwise (fun a b => a.line_num < b.line_num) := by
  intro ls
  induction ls with
  | nil => intro idx; simp [scanLinesAux]
  | cons o rest ih =>
    intro idx
    cases o with
    | none => simp [scanLinesAux]
    | some l =>
      rcases hmatch : reFind n l with _ | ⟨s, e⟩
      · simpa [scanLinesAux, lineFindings, hmatch] using ih (idx + 1)
      · simp only [scanLinesAux, lineFindings, hmatch, List.singleton_append]
        rw [List.pairwise_cons]
        refine ⟨?_, ih (idx + 1)⟩
        intro f hf
        exact scanLinesAux_mem_lt p n rest (idx + 1) f hf

/-- C8: within one file the findings come out in strictly increasing
1-based line-number order (hence non-decreasing). -/
theorem C8_line_order (p : List String) (fd : FileData) (n ms : Nat) :
    (scan_file p fd n ms).Pairwise (fun a b => a.line_num < b.line_num) ∧
    (∀ f ∈ scan_file p fd n ms, 1 ≤ f.line_num) := by
  constructor
  · unfold scan_file
    split
    · simp
    · split
      · simp
      · split
        · simp
        · exact scanLinesAux_pairwise p n fd.lines 0
  · intro f hf
    exact scanLinesAux_mem_lt p n fd.lines 0 f (mem_scan_file p fd n ms f hf)

theorem C8_line_order_witness :
    (scan_file ["w"] hitFile 50 100).Pairwise (fun a b => a.line_num < b.line_num) ∧
    1 ≤ (⟨["w"], 1, 50, spacesLine⟩ : Finding).line_num :=
  ⟨(C8_line_order ["w"] hitFile 50 100).1,
   (C8_line_order ["w"] hitFile 50 100).2 _ (by decide)⟩

theorem walkTree_segments :
    ∀ (t : FsTree), ∀ pd ∈ walkTree t, ∀ seg ∈ pd.1, seg ∉ denylist := by
  refine walkTree.induct
    (fun t => ∀ pd ∈ walkTree t, ∀ seg ∈ pd.1, seg ∉ denylist)
    (fun ts => ∀ pd ∈ walkList ts, ∀ seg ∈ pd.1, seg ∉ denylist)
    ?_ ?_ ?_ ?_ ?_ ?_
  · intro nm d h pd hpd
    simp [walkTree, h] at hpd
  · intro nm d h pd hpd seg hseg
    simp only [walkTree, if_neg h, List.mem_singleton] at hpd
    subst hpd
    have hs : seg = nm := by simpa using hseg
    subst hs
    exact h
  · intro nm ch h pd hpd
    simp [walkTree, h] at hpd
  · intro nm ch h ih pd hpd seg hseg
    simp only [walkTree, if_neg h, List.mem_map] at hpd
    obtain ⟨pd', hpd', rfl⟩ := hpd
    rcases (by simpa using hseg : seg = nm ∨ seg ∈ pd'.1) with rfl | hseg'
    · exact h
    · exact ih pd' hpd' seg hseg'
  · intro pd hpd
    simp [walkList] at hpd
  · intro t ts iht ihts pd hpd
    simp only [walkList, List.mem_append] at hpd
    rcases hpd with hpd | hpd
    · exact iht pd hpd
    · exact ihts pd hpd

theorem walkList_append (ts₁ ts₂ : List FsTree) :
    walkList (ts₁ ++ ts₂) = walkList ts₁ ++ walkList ts₂ := by
  induction ts₁ with
  | nil => simp [walkList]
  | cons t ts ih => simp [walkList, ih]

/-- C4 fails as stated: when the user-supplied root path itself lies inside
a denylisted directory (here the scan is rooted at `node_modules/proj`),
the produced finding's owning path contains the denylisted segment
`node_modules`.  The walker's `filter_entry` only inspects the names of
entries it traverses, never the segments of the root path given on the
command line. -/
theorem C4_counterexample :
    (scanTree ["node_modules"] cexTree 50 100).map Finding.path
      = [["node_modules", "proj", "a.txt"]] ∧
    "node_modules" ∈ denylist := by
  exact ⟨rfl, by decide⟩

/-- C4 amended: no path segment strictly below the user-supplied root path
equals a denylisted directory name — every segment produced by descending
the traversal passes the denylist check; only the root path's own segments
escape it. -/
theorem C4_no_denylisted_segment_below_root (rootDir : List String) (t : FsTree)
    (n ms : Nat) :
    ∀ f ∈ scanTree rootDir t n ms,
      ∀ seg ∈ f.path.drop (rootDir.length + 1), seg ∉ denylist := by
  intro f hf seg hseg
  simp only [scanTree, runScan, List.mem_flatMap, List.mem_map] at hf
  obtain ⟨⟨q, fd⟩, ⟨pd, hpdwalk, hpdeq⟩, hfscan⟩ := hf
  obtain ⟨rfl, rfl⟩ : rootDir ++ pd.1 = q ∧ pd.2 = fd := by
    simpa [Prod.ext_iff] using hpdeq
  have hpath :=
    scanLinesAux_mem_path (rootDir ++ pd.1) n pd.2.lines 0 f
      (mem_scan_file (rootDir ++ pd.1) pd.2 n ms f hfscan)
  rw [hpath] at hseg
  have hdrop : (rootDir ++ pd.1).drop (rootDir.length + 1) = pd.1.drop 1 := by
    rw [← List.drop_drop, List.drop_left]
  rw [hdrop] at hseg
  exact walkTree_segments t pd hpdwalk seg (List.mem_of_mem_drop hseg)

theorem C4_no_denylisted_segment_below_root_witness :
    "a.txt" ∉ denylist :=
  C4_no_denylisted_segment_below_root ["home"] cexTree 50 100
    ⟨["home", "proj", "a.txt"], 1, 50, spacesLine⟩ (by decide) "a.txt" (by decide)

/-- C10: the traversal filter tests the base name regardless of the entry's
type — a regular file literally named after a denylisted directory (for
example `build`) is never yielded: as walk root it produces nothing, and
as a directory child it contributes nothing to the walk. -/
theorem C10_denylist_filters_files_too (nm : String) (hnm : nm ∈ denylist) (d : FileData)
    (dirName : String) (ch1 ch2 : List FsTree) :
    walkTree (FsTree.file nm d) = [] ∧
    walkTree (FsTree.dir dirName (ch1 ++ FsTree.file nm d :: ch2))
      = walkTree (FsTree.dir dirName (ch1 ++ ch2)) := by
  constructor
  · simp [walkTree, hnm]
  · by_cases h : dirName ∈ denylist
    · simp [walkTree, h]
    · simp only [walkTree, if_neg h, walkList_append, walkList]
      simp [walkTree, hnm]

theorem C10_denylist_filters_files_too_witness :
    ("build" ∈ denylist) ∧ walkTree (FsTree.file "build" hitFile) = [] :=
  ⟨by decide, (C10_denylist_filters_files_too "build" (by decide) hitFile "root" [] []).1⟩

/-- C7 fails as stated: the CLI performs no validation of the threshold, so
`-n 0` resolves to a configuration with `min_whitespace = 0`, and a scan
does run with threshold 0 — the regex `[ \t]{0,}` matches the empty run at
the start of every line, producing a finding with whitespace count 0 even
on a line with no whitespace at all. -/
theorem C7_counterexample :
    (parseCli none (some 0) false none none).min_whitespace = 0 ∧
    scan_file ["f"] zeroFile 0 100 = [⟨["f"], 1, 0, ['a', 'b']⟩] :=
  ⟨rfl, rfl⟩

/-- C7 amended: the threshold invariant holds for the default — a
configuration resolved without an explicit `-n` argument has
`min_whitespace = 50 ≥ 1` — but an explicit argument is taken verbatim
with no validation, so a scan can be performed with threshold 0. -/
theorem C7_default_threshold (p : Option String) (v : Bool) (m : Option Nat)
    (hv : Option String) (k : Nat) :
    (parseCli p none v m hv).min_whitespace = 50 ∧
    1 ≤ (parseCli p none v m hv).min_whitespace ∧
    (parseCli p (some k) v m hv).min_whitespace = k :=
  ⟨rfl, by simp [parseCli], rfl⟩

/-- C9: the findings of a full scan, viewed as (path, line number,
whitespace count) tuples, do not depend on the order in which the
orchestrator processes the files: runs over any two orderings of the same
snapshot produce permutations of each other, hence the same set of
tuples. With identical configuration and an unmodified snapshot the
embedded scan is a pure function, so two runs differ at most by this
ordering. -/
theorem C9_scan_order_independent (n ms : Nat)
    (files₁ files₂ : List (List String × FileData)) (hperm : files₁.Perm files₂) :
    ((runScan files₁ n ms).map findingTuple).Perm
      ((runScan files₂ n ms).map findingTuple) ∧
    ((runScan files₁ n ms).map findingTuple).toFinset
      = ((runScan files₂ n ms).map findingTuple).toFinset := by
  have hp : (runScan files₁ n ms).Perm (runScan files₂ n ms) := by
    unfold runScan
    exact hperm.flatMap_right _
  exact ⟨hp.map _, List.toFinset_eq_of_perm _ _ (hp.map _)⟩

theorem C9_scan_order_independent_witness :
    ([(["a"], hitFile), (["b"], hitFile)] : List (List String × FileData)).Perm
      [(["b"], hitFile), (["a"], hitFile)] ∧
    ((runScan [(["a"], hitFile), (["b"], hitFile)] 50 100).map findingTuple).Perm
      ((runScan [(["b"], hitFile), (["a"], hitFile)] 50 100).map findingTuple) :=
  ⟨List.Perm.swap _ _ _,
   (C9_scan_order_independent 50 100 _ _ (List.Perm.swap _ _ _)).1⟩

section Sanity

example : reFind 2 [' ', ' ', 'x'] = some (0, 2) := by decide

example : reFind 3 [' ', ' ', 'x', ' ', '\t', ' '] = some (3, 6) := by decide

example : reFind 2 ['a', 'b'] = none := by decide

example : reFind 0 ['a', 'b'] = some (0, 0) := by decide

example : wsRun [' ', '\t', 'x'] = 2 := by decide

example : byteLen ['a', '€'] = 4 := by decide

end Sanity
